import Mathlib

/-!
Shallow embedding of the WriteLoopBackend retrieval engine.

Source files embedded:
* `app/services/rag_retriever.py` — `retrieve_similar_continuations`
* `app/data/writing_corpus.py` — `WRITING_CORPUS`, `_load_ielts_data`, `get_writing_corpus`
* `app/services/suggest_service.py` — the context truncation performed before retrieval

Python strings become `String`, Python lists become `List`, the (possibly negative)
`top_k` becomes `Int`, and the nullable `read_essay_ids` parameter becomes
`Option (List Int)`.  The database corpus snapshot (a possibly failing read) becomes
an `Except String (List Essay)` parameter.
-/

namespace WriteLoopBackend

/-!
Python's string primitives (`in`, `.lower()`, `.strip()`, `.split()`,
`.split(". ")`, `text[-100:]`) are modelled character-wise over `String.data`,
which matches their semantics on the ASCII data this program handles.
-/

/-- `matchesAt n h`: the character list `n` is an initial segment of `h`. -/
def matchesAt : List Char → List Char → Bool
  | [], _ => true
  | _ :: _, [] => false
  | a :: n, b :: h => a == b && matchesAt n h

/-- `occursIn n h`: `n` occurs contiguously somewhere in `h`. -/
def occursIn (n : List Char) (h : List Char) : Bool :=
  match h with
  | [] => n.isEmpty
  | _ :: h' => matchesAt n h || occursIn n h'

/-- Python `needle in hay` on strings: contiguous substring containment. -/
def substrOf (needle hay : String) : Bool :=
  occursIn needle.data hay.data

/-- Python `s.lower()`. -/
def pyLower (s : String) : String :=
  String.mk (s.data.map Char.toLower)

/-- Whether a Python string is empty (falsy). -/
def strEmpty (s : String) : Bool := s.data.isEmpty

/-- Python `s.strip()`: drop whitespace from both ends. -/
def trimList (l : List Char) : List Char :=
  ((l.dropWhile Char.isWhitespace).reverse.dropWhile Char.isWhitespace).reverse

def pyStrip (s : String) : String := String.mk (trimList s.data)

/-- Splitter for whitespace runs, keeping empty segments (filtered by `pyWords`). -/
def wordsAux : List Char → List (List Char)
  | [] => [[]]
  | c :: rest =>
    if c.isWhitespace then [] :: wordsAux rest
    else
      match wordsAux rest with
      | seg :: segs => (c :: seg) :: segs
      | [] => [[c]]

/-- Python `s.split()`: split on whitespace, dropping empty tokens. -/
def pyWords (s : String) : List String :=
  ((wordsAux s.data).filter (fun w => !w.isEmpty)).map String.mk

/-- Python `s.split(". ")`: cut at every non-overlapping occurrence of a period
    followed by a space, scanning left to right. -/
def splitPeriodSpace : List Char → List (List Char)
  | '.' :: ' ' :: rest => [] :: splitPeriodSpace rest
  | c :: rest =>
    match splitPeriodSpace rest with
    | seg :: segs => (c :: seg) :: segs
    | [] => [[c]]
  | [] => [[]]

/-- Python `text[-n:]`. -/
def pyTakeRight (n : Nat) (s : String) : String :=
  String.mk (s.data.drop (s.data.length - n))

/-- Python slicing `l[:k]` for an integer `k`; a negative `k` counts from the end
    and an out-of-range bound clamps. -/
def pySlice (l : List String) (k : Int) : List String :=
  if 0 ≤ k then l.take k.toNat else l.take ((l.length : Int) + k).toNat

/-- `WRITING_CORPUS` from `app/data/writing_corpus.py` (the static phrase list). -/
def WRITING_CORPUS : List String := [
  "has revolutionized the way we communicate and work",
  "brings both unprecedented opportunities and significant challenges",
  "can lead to social isolation if not used responsibly",
  "enhances learning efficiency through personalized content",
  "requires immediate action from governments and individuals alike",
  "is a pressing global issue that demands collective efforts",
  "can be mitigated through sustainable practices and innovation",
  "poses a serious threat to biodiversity and ecosystem stability",
  "fosters critical thinking and independent learning skills",
  "should emphasize practical application over rote memorization",
  "plays a pivotal role in shaping future societal leaders",
  "must be accessible to all regardless of socioeconomic background",
  "calls for comprehensive legislation and public awareness campaigns",
  "is instrumental in promoting social equity and justice",
  "can significantly reduce inequality if properly implemented",
  "demands a balanced approach between freedom and regulation",
  "is supported by a growing body of empirical evidence",
  "remains a subject of intense debate among scholars",
  "can be attributed to a confluence of historical and economic factors",
  "warrants further investigation to fully understand its implications",
  "is widely regarded as a cornerstone of modern society"
]

/-- The `keywords` dictionary of `retrieve_similar_continuations` (lines 32-40);
    Python dict iteration order is declaration order. -/
def keywords : List (String × List String) := [
  ("technology", ["technology", "internet", "digital", "online", "ai", "app", "smartphone", "computer", "software"]),
  ("environment", ["environment", "pollution", "climate", "carbon", "eco", "green", "biodiversity", "species", "extinction"]),
  ("education", ["education", "school", "student", "learn", "teach", "academic", "university", "degree", "qualification"]),
  ("society", ["society", "government", "policy", "law", "people", "social", "population", "community", "citizen"]),
  ("health", ["health", "medical", "doctor", "treatment", "disease", "healthcare", "medicine"]),
  ("economy", ["economy", "economic", "business", "work", "employment", "job", "income", "money", "financial"]),
  ("general", ["important", "issue", "problem", "solution", "study", "research", "benefit", "advantage", "disadvantage"])
]

/-- One row of the `essays` table, restricted to the two columns the retrieval
    layer reads; `body_text` is a nullable column. -/
structure Essay where
  essay_number : Int
  body_text : Option String
deriving DecidableEq, Repr

/-- `essay.body_text or ""`. -/
def Essay.bodyText (e : Essay) : String := e.body_text.getD ""

/-- `[s.strip() for s in body_text.split(". ") if s.strip()]`. -/
def splitSentences (body : String) : List String :=
  ((splitPeriodSpace body.data).map (fun l => String.mk (trimList l))).filter (fun s => !strEmpty s)

/-- Sentence extraction with the 8..30 word-count filter, as written identically in
    `_load_ielts_data` (lines 53-57) and in `retrieve_similar_continuations`
    (lines 24-29). -/
def extractSentences (body : String) : List String :=
  (splitSentences body).filter
    (fun s => decide (8 ≤ (pyWords s).length ∧ (pyWords s).length ≤ 30))

/-- Lines 16-29 of `rag_retriever.py`: sentences collected from the essays whose
    number is in the reading history. -/
def readEssaySentences (all_essays : List Essay) (read_essay_ids : List Int) : List String :=
  (all_essays.filter (fun e => read_essay_ids.contains e.essay_number)).flatMap
    (fun e => if strEmpty e.bodyText then [] else extractSentences e.bodyText)

/-- The personalized pool: `read_essay_sentences` is `[]` unless `read_essay_ids`
    is a truthy (non-empty) list (lines 16-17). -/
def ressOf (read_essay_ids : Option (List Int)) (all_essays : List Essay) : List String :=
  match read_essay_ids with
  | none => []
  | some ids => if ids.isEmpty then [] else readEssaySentences all_essays ids

/-- Inner Tier-A loop (lines 48-54 and 79-85): scan a pool for entries containing a
    keyword of the current category, skip entries already in `matched`, and signal
    an early `return matched[:top_k]` (the `true` flag) as soon as
    `len(matched) >= top_k`. -/
def scanTierA (ws : List String) (k : Int) (pool : List String) (matched : List String) : List String × Bool :=
  match pool with
  | [] => (matched, false)
  | s :: rest =>
    if ws.any (fun kw => substrOf kw (pyLower s)) then
      let m := if matched.contains s then matched else matched ++ [s]
      if k ≤ (m.length : Int) then (m, true) else scanTierA ws k rest m
    else scanTierA ws k rest matched

/-- Outer Tier-A loop (lines 46-47 and 77-78): iterate the categories in declaration
    order, entering one only if some keyword of it occurs in the lowered context. -/
def tierACats (cats : List (String × List String)) (pool : List String) (ctxL : String) (k : Int) (matched : List String) : List String × Bool :=
  match cats with
  | [] => (matched, false)
  | (_, ws) :: rest =>
    if ws.any (fun w => substrOf w ctxL) then
      match scanTierA ws k pool matched with
      | (m, true) => (m, true)
      | (m, false) => tierACats rest pool ctxL k m
    else tierACats rest pool ctxL k matched

/-- `len(context_words & sentence_words)`: the number of distinct whitespace
    tokens of `s` (lowered) that also occur among the context words. -/
def overlapScore (ctxWords : List String) (s : String) : Nat :=
  ((pyWords (pyLower s)).dedup.filter (fun w => ctxWords.contains w)).length

/-- Lines 59-66 and 90-98: build the `(overlap, sentence)` list in pool order,
    skipping entries already in `matched` and zero overlaps. -/
def scoredOf (pool matched : List String) (ctxWords : List String) : List (Nat × String) :=
  match pool with
  | [] => []
  | s :: rest =>
    if matched.contains s then scoredOf rest matched ctxWords
    else if 0 < overlapScore ctxWords s then
      (overlapScore ctxWords s, s) :: scoredOf rest matched ctxWords
    else scoredOf rest matched ctxWords

/-- `scored.sort(reverse=True, key=lambda x: x[0])`: Python's sort is stable, and
    with `reverse=True` equal keys keep their original relative order.  Inserting
    behind every strictly larger key realises exactly that order. -/
def insertDesc (x : Nat × String) : List (Nat × String) → List (Nat × String)
  | [] => [x]
  | y :: ys => if x.1 < y.1 then y :: insertDesc x ys else x :: y :: ys

def sortDesc : List (Nat × String) → List (Nat × String)
  | [] => []
  | x :: xs => insertDesc x (sortDesc xs)

/-- One word-overlap pass (lines 57-72 and 88-105).  The appended slice is
    `scored_sentences[:top_k - len(matched)]`; the `break` inside the append loop
    can only fire on the slice's last element, so the whole slice is appended. -/
def tierBPhase (pool : List String) (ctxL : String) (k : Int) (matched : List String) : List String :=
  let scored := scoredOf pool matched (pyWords ctxL)
  matched ++ ((sortDesc scored).take ((k - (matched.length : Int)).toNat)).map (fun p => p.2)

/-- The fixed marker-word list of the fallback tier (line 109). -/
def markerWords : List String := ["empirical", "debate", "warrants", "evidence", "argue", "conclude"]

def hasMarker (p : String) : Bool := markerWords.any (fun w => substrOf w (pyLower p))

/-- `general_phrases` (line 109). -/
def generalPhrases (corpus : List String) : List String := corpus.filter hasMarker

/-- The fallback append loop (lines 110-114). -/
def fallbackLoop (k : Int) (general : List String) (matched : List String) : List String :=
  match general with
  | [] => matched
  | p :: rest =>
    if matched.contains p then fallbackLoop k rest matched
    else
      let m := matched ++ [p]
      if k ≤ (m.length : Int) then m else fallbackLoop k rest m

/-- Lines 44-72: the two passes over the personalized pool, starting from the empty
    `matched`; the flag reports the early `return matched[:top_k]` of Tier A. -/
def personalPhases (ress : List String) (ctxL : String) (k : Int) : List String × Bool :=
  match tierACats keywords ress ctxL k [] with
  | (m, true) => (m, true)
  | (m, false) => if (m.length : Int) < k then (tierBPhase ress ctxL k m, false) else (m, false)

/-- Lines 75-114: the generic-corpus passes.  An early Tier-A return yields the
    accumulated list, which the caller slices exactly as the final return does. -/
def corpusPhases (corpus : List String) (ctxL : String) (k : Int) (matched : List String) : List String :=
  match tierACats keywords corpus ctxL k matched with
  | (m, true) => m
  | (m, false) =>
    let m2 := if (m.length : Int) < k then tierBPhase corpus ctxL k m else m
    if (m2.length : Int) < k then fallbackLoop k (generalPhrases corpus) m2 else m2

/-- The accumulated `matched` list at the point of return. -/
def retrieveFinal (context : String) (top_k : Int) (read_essay_ids : Option (List Int)) (corpus : List String) (all_essays : List Essay) : List String :=
  let ctxL := pyLower context
  let ress := ressOf read_essay_ids all_essays
  let p1 := if ress.isEmpty then ([], false) else personalPhases ress ctxL top_k
  if p1.2 then p1.1
  else if ((p1.1.length : Int) < top_k) then corpusPhases corpus ctxL top_k p1.1
  else p1.1

/-- `retrieve_similar_continuations(context, top_k, read_essay_ids)` against a
    corpus/essay snapshot; every `return` in the source returns `matched[:top_k]`. -/
def retrieve_similar_continuations (context : String) (top_k : Int) (read_essay_ids : Option (List Int)) (corpus : List String) (all_essays : List Essay) : List String :=
  pySlice (retrieveFinal context top_k read_essay_ids corpus all_essays) top_k

/-- `_load_ielts_data` (writing_corpus.py lines 44-63): a failing database read is
    caught by the `except` branch, which logs and returns the empty list. -/
def loadIeltsData (dbEssays : Except String (List Essay)) : List String :=
  match dbEssays with
  | Except.ok essays =>
      essays.flatMap (fun e => if strEmpty e.bodyText then [] else extractSentences e.bodyText)
  | Except.error _ => []

/-- `get_writing_corpus` (lines 69-79): memoized combination of the static list and
    the essay-derived phrases; returns the corpus together with the committed cache. -/
def getWritingCorpus (cache : Option (List String)) (dbEssays : Except String (List Essay)) : List String × Option (List String) :=
  match cache with
  | some c => (c, some c)
  | none =>
    let combined := WRITING_CORPUS ++ loadIeltsData dbEssays
    (combined, some combined)

/-- A call record for `retrieve_similar_continuations`: line 12 of the source
    executes `corpus = get_writing_corpus()` unconditionally, before `top_k` is
    ever inspected — the function has no early return for `top_k ≤ 0` — so the
    corpus accessor is consulted on every call, which the flag records. -/
structure RetrieveCall where
  result : List String
  corpusConsulted : Bool
deriving Repr

def retrieveTraced (context : String) (top_k : Int) (read_essay_ids : Option (List Int)) (cache : Option (List String)) (dbEssays : Except String (List Essay)) : RetrieveCall :=
  let corpus := (getWritingCorpus cache dbEssays).1
  let all_essays := match dbEssays with
    | Except.ok es => es
    | Except.error _ => []
  { result := retrieve_similar_continuations context top_k read_essay_ids corpus all_essays,
    corpusConsulted := true }

/-- suggest_service.py line 20: the caller truncates the user text to its last 100
    characters and strips it before invoking the retriever (line 28). -/
def ragContext (text : String) : String := pyStrip (pyTakeRight 100 text)

/-- The retrieval call made by `generate_suggestions` on its non-empty-text path. -/
def retrieveForSuggest (text : String) (top_k : Int) (read_essay_ids : Option (List Int)) (corpus : List String) (all_essays : List Essay) : List String :=
  retrieve_similar_continuations (ragContext text) top_k read_essay_ids corpus all_essays

/-- `s` satisfies Tier A for the lowered context: some category is gated by the
    context and `s` contains one of that category's keywords. -/
def satisfiesTierA (ctxL : String) (s : String) : Bool :=
  keywords.any (fun cw =>
    cw.2.any (fun w => substrOf w ctxL) && cw.2.any (fun kw => substrOf kw (pyLower s)))

/-- The Tier-B eligible candidates of a pool, written from the spec's words:
    the not-yet-selected pool entries whose word set shares at least one word with
    the context's word set, in pool order. -/
def specEligible (pool matched : List String) (ctxL : String) : List String :=
  pool.filter (fun s => !matched.contains s && decide (0 < overlapScore (pyWords ctxL) s))

/-! ## Structural lemmas about the phases -/

theorem pySlice_of_nonneg (l : List String) (k : Int) (hk : 0 ≤ k) :
    pySlice l k = l.take k.toNat := by
  simp [pySlice, hk]

theorem pySlice_length_le (l : List String) (k : Int) (hk : 0 ≤ k) :
    ((pySlice l k).length : Int) ≤ k := by
  rw [pySlice_of_nonneg l k hk]
  have h1 : (l.take k.toNat).length ≤ k.toNat := by
    simp [List.length_take]
  omega

theorem pySlice_sublist (l : List String) (k : Int) :
    (pySlice l k).Sublist l := by
  unfold pySlice
  split <;> exact List.take_sublist _ _

theorem pySlice_subset (l : List String) (k : Int) (x : String)
    (hx : x ∈ pySlice l k) : x ∈ l :=
  (pySlice_sublist l k).subset hx

theorem scanTierA_spec (ws : List String) (k : Int) (pool : List String) :
    ∀ matched, ∃ t, (scanTierA ws k pool matched).1 = matched ++ t ∧
      t.Nodup ∧ ∀ x ∈ t, x ∈ pool ∧ ¬ x ∈ matched := by
  induction pool with
  | nil =>
    intro matched
    exact ⟨[], by simp [scanTierA], List.nodup_nil, by simp⟩
  | cons s rest ih =>
    intro matched
    by_cases hkw : ws.any (fun kw => substrOf kw (pyLower s)) = true
    · by_cases hm : s ∈ matched
      · by_cases hlen : k ≤ ((matched.length : Nat) : Int)
        · exact ⟨[], by simp [scanTierA, hkw, hm, hlen], List.nodup_nil, by simp⟩
        · obtain ⟨t, h1, h2, h3⟩ := ih matched
          refine ⟨t, ?_, h2, fun x hx => ⟨List.mem_cons_of_mem s (h3 x hx).1, (h3 x hx).2⟩⟩
          rw [← h1]
          simp [scanTierA, hkw, hm, hlen]
      · by_cases hlen : k ≤ ((matched.length : Int) + 1)
        · refine ⟨[s], by simp [scanTierA, hkw, hm, hlen], List.nodup_singleton s, ?_⟩
          intro x hx
          rw [List.mem_singleton] at hx
          subst hx
          exact ⟨by simp, hm⟩
        · obtain ⟨t, h1, h2, h3⟩ := ih (matched ++ [s])
          refine ⟨s :: t, ?_, ?_, ?_⟩
          · rw [show matched ++ s :: t = (matched ++ [s]) ++ t by simp, ← h1]
            simp [scanTierA, hkw, hm, hlen]
          · refine List.nodup_cons.mpr ⟨fun hs => ?_, h2⟩
            exact (h3 s hs).2 (by simp)
          · intro x hx
            rcases List.mem_cons.mp hx with h | h
            · subst h
              exact ⟨by simp, hm⟩
            · refine ⟨List.mem_cons_of_mem s (h3 x h).1, fun hmem => (h3 x h).2 ?_⟩
              simp [hmem]
    · obtain ⟨t, h1, h2, h3⟩ := ih matched
      refine ⟨t, ?_, h2, fun x hx => ⟨List.mem_cons_of_mem s (h3 x hx).1, (h3 x hx).2⟩⟩
      rw [← h1]
      simp [scanTierA, hkw]

theorem scanTierA_mono_mem (ws : List String) (k : Int) (pool matched : List String)
    (x : String) (hx : x ∈ matched) : x ∈ (scanTierA ws k pool matched).1 := by
  obtain ⟨t, h1, -, -⟩ := scanTierA_spec ws k pool matched
  rw [h1]
  exact List.mem_append_left t hx

/-- If the Tier-A scan of a category finished without an early return, every pool
    entry containing one of the category's keywords made it into the output. -/
theorem scanTierA_false_mem (ws : List String) (k : Int) (pool : List String) :
    ∀ matched m, scanTierA ws k pool matched = (m, false) →
      ∀ s ∈ pool, ws.any (fun kw => substrOf kw (pyLower s)) = true → s ∈ m := by
  induction pool with
  | nil =>
    intro matched m h s hs
    simp at hs
  | cons s0 rest ih =>
    intro matched m h s hs hkw2
    rcases List.mem_cons.mp hs with rfl | hs'
    · by_cases hm : s ∈ matched
      · by_cases hlen : k ≤ ((matched.length : Nat) : Int)
        · simp [scanTierA, hkw2, hm, hlen] at h
        · have h' : scanTierA ws k rest matched = (m, false) := by
            simpa [scanTierA, hkw2, hm, hlen] using h
          have hmem := scanTierA_mono_mem ws k rest matched s hm
          rwa [h'] at hmem
      · by_cases hlen : k ≤ ((matched.length : Int) + 1)
        · simp [scanTierA, hkw2, hm, hlen] at h
        · have h' : scanTierA ws k rest (matched ++ [s]) = (m, false) := by
            simpa [scanTierA, hkw2, hm, hlen] using h
          have : s ∈ matched ++ [s] := by simp
          have := scanTierA_mono_mem ws k rest (matched ++ [s]) s this
          rwa [h'] at this
    · by_cases hkw0 : ws.any (fun kw => substrOf kw (pyLower s0)) = true
      · by_cases hm : s0 ∈ matched
        · by_cases hlen : k ≤ ((matched.length : Nat) : Int)
          · simp [scanTierA, hkw0, hm, hlen] at h
          · have h' : scanTierA ws k rest matched = (m, false) := by
              simpa [scanTierA, hkw0, hm, hlen] using h
            exact ih matched m h' s hs' hkw2
        · by_cases hlen : k ≤ ((matched.length : Int) + 1)
          · simp [scanTierA, hkw0, hm, hlen] at h
          · have h' : scanTierA ws k rest (matched ++ [s0]) = (m, false) := by
              simpa [scanTierA, hkw0, hm, hlen] using h
            exact ih (matched ++ [s0]) m h' s hs' hkw2
      · have h' : scanTierA ws k rest matched = (m, false) := by
          simpa [scanTierA, hkw0] using h
        exact ih matched m h' s hs' hkw2

theorem tierACats_spec (pool : List String) (ctxL : String) (k : Int) :
    ∀ cats matched, ∃ t, (tierACats cats pool ctxL k matched).1 = matched ++ t ∧
      t.Nodup ∧ ∀ x ∈ t, x ∈ pool ∧ ¬ x ∈ matched := by
  intro cats
  induction cats with
  | nil =>
    intro matched
    exact ⟨[], by simp [tierACats], List.nodup_nil, by simp⟩
  | cons cw rest ih =>
    intro matched
    obtain ⟨cat, ws⟩ := cw
    by_cases hg : ws.any (fun w => substrOf w ctxL) = true
    · obtain ⟨t1, e1, n1, f1⟩ := scanTierA_spec ws k pool matched
      rcases hsc : scanTierA ws k pool matched with ⟨m1, b⟩
      have hm1 : m1 = matched ++ t1 := by rw [← e1, hsc]
      cases b
      · obtain ⟨t2, e2, n2, f2⟩ := ih m1
        refine ⟨t1 ++ t2, ?_, ?_, ?_⟩
        · have hstep : (tierACats ((cat, ws) :: rest) pool ctxL k matched).1
              = (tierACats rest pool ctxL k m1).1 := by
            simp [tierACats, hg, hsc]
          rw [hstep, e2, hm1, List.append_assoc]
        · refine List.Nodup.append n1 n2 ?_
          intro a ha1 ha2
          exact (f2 a ha2).2 (hm1 ▸ List.mem_append_right matched ha1)
        · intro x hx
          rcases List.mem_append.mp hx with h | h
          · exact f1 x h
          · exact ⟨(f2 x h).1, fun hmem => (f2 x h).2 (hm1 ▸ List.mem_append_left t1 hmem)⟩
      · refine ⟨t1, ?_, n1, f1⟩
        have hstep : (tierACats ((cat, ws) :: rest) pool ctxL k matched).1 = m1 := by
          simp [tierACats, hg, hsc]
        rw [hstep, hm1]
    · obtain ⟨t, h1, h2, h3⟩ := ih matched
      refine ⟨t, ?_, h2, h3⟩
      rw [← h1]
      simp [tierACats, hg]

theorem tierACats_mono_mem (cats : List (String × List String)) (pool : List String)
    (ctxL : String) (k : Int) (matched : List String) (x : String) (hx : x ∈ matched) :
    x ∈ (tierACats cats pool ctxL k matched).1 := by
  obtain ⟨t, h1, -, -⟩ := tierACats_spec pool ctxL k cats matched
  rw [h1]
  exact List.mem_append_left t hx

/-- If the whole Tier-A pass finished without an early return then, for every
    category gated by the context, every pool entry containing one of its keywords
    is in the output. -/
theorem tierACats_false_mem (pool : List String) (ctxL : String) (k : Int) :
    ∀ cats matched m, tierACats cats pool ctxL k matched = (m, false) →
      ∀ cw ∈ cats, cw.2.any (fun w => substrOf w ctxL) = true →
      ∀ s ∈ pool, cw.2.any (fun kw => substrOf kw (pyLower s)) = true → s ∈ m := by
  intro cats
  induction cats with
  | nil =>
    intro matched m h cw hcw
    simp at hcw
  | cons cw0 rest ih =>
    intro matched m h cw hcw hg s hs hkw
    obtain ⟨cat0, ws0⟩ := cw0
    rcases List.mem_cons.mp hcw with rfl | hcw'
    · rcases hsc : scanTierA ws0 k pool matched with ⟨m1, b⟩
      cases b
      · have h' : tierACats rest pool ctxL k m1 = (m, false) := by
          rw [← h]
          simp [tierACats, hg, hsc]
        have hs1 : s ∈ m1 := scanTierA_false_mem ws0 k pool matched m1 hsc s hs hkw
        have := tierACats_mono_mem rest pool ctxL k m1 s hs1
        rwa [h'] at this
      · exfalso
        have : tierACats ((cat0, ws0) :: rest) pool ctxL k matched = (m1, true) := by
          simp [tierACats, hg, hsc]
        rw [this] at h
        simpa using congrArg Prod.snd h
    · by_cases hg0 : ws0.any (fun w => substrOf w ctxL) = true
      · rcases hsc : scanTierA ws0 k pool matched with ⟨m1, b⟩
        cases b
        · have h' : tierACats rest pool ctxL k m1 = (m, false) := by
            rw [← h]
            simp [tierACats, hg0, hsc]
          exact ih m1 m h' cw hcw' hg s hs hkw
        · exfalso
          have : tierACats ((cat0, ws0) :: rest) pool ctxL k matched = (m1, true) := by
            simp [tierACats, hg0, hsc]
          rw [this] at h
          simpa using congrArg Prod.snd h
      · have h' : tierACats rest pool ctxL k matched = (m, false) := by
          rw [← h]
          simp [tierACats, hg0]
        exact ih matched m h' cw hcw' hg s hs hkw

/-- With `top_k ≤ 0` the early-return check fires on the first Tier-A match, so a
    completed scan appends nothing and an interrupted one appends at most one item. -/
theorem scanTierA_nonpos (ws : List String) (k : Int) (hk : k ≤ 0) :
    ∀ pool matched,
      ((scanTierA ws k pool matched).2 = false → (scanTierA ws k pool matched).1 = matched) ∧
      (scanTierA ws k pool matched).1.length ≤ matched.length + 1 := by
  intro pool
  induction pool with
  | nil =>
    intro matched
    constructor
    · intro
      simp [scanTierA]
    · simp [scanTierA]
  | cons s rest ih =>
    intro matched
    by_cases hkw : ws.any (fun kw => substrOf kw (pyLower s)) = true
    · by_cases hm : s ∈ matched
      · have hlen : k ≤ ((matched.length : Nat) : Int) := by omega
        constructor
        · intro hb
          simp [scanTierA, hkw, hm, hlen] at hb
        · simp [scanTierA, hkw, hm, hlen]
      · have hlen : k ≤ ((matched.length : Int) + 1) := by omega
        constructor
        · intro hb
          simp [scanTierA, hkw, hm, hlen] at hb
        · simp [scanTierA, hkw, hm, hlen]
    · have e : scanTierA ws k (s :: rest) matched = scanTierA ws k rest matched := by
        simp [scanTierA, hkw]
      rw [e]
      exact ih matched

theorem tierACats_nonpos (pool : List String) (ctxL : String) (k : Int) (hk : k ≤ 0) :
    ∀ cats matched,
      ((tierACats cats pool ctxL k matched).2 = false →
        (tierACats cats pool ctxL k matched).1 = matched) ∧
      (tierACats cats pool ctxL k matched).1.length ≤ matched.length + 1 := by
  intro cats
  induction cats with
  | nil =>
    intro matched
    constructor
    · intro
      simp [tierACats]
    · simp [tierACats]
  | cons cw rest ih =>
    intro matched
    obtain ⟨cat, ws⟩ := cw
    by_cases hg : ws.any (fun w => substrOf w ctxL) = true
    · rcases hsc : scanTierA ws k pool matched with ⟨m1, b⟩
      cases b
      · have hm1 : m1 = matched := by
          have := (scanTierA_nonpos ws k hk pool matched).1
          rw [hsc] at this
          exact this rfl
        have e : tierACats ((cat, ws) :: rest) pool ctxL k matched
            = tierACats rest pool ctxL k m1 := by
          simp [tierACats, hg, hsc]
        rw [e, hm1]
        exact ih matched
      · have e : tierACats ((cat, ws) :: rest) pool ctxL k matched = (m1, true) := by
          simp [tierACats, hg, hsc]
        rw [e]
        constructor
        · intro hb
          simp at hb
        · have := (scanTierA_nonpos ws k hk pool matched).2
          rw [hsc] at this
          exact this
    · have e : tierACats ((cat, ws) :: rest) pool ctxL k matched
          = tierACats rest pool ctxL k matched := by
        simp [tierACats, hg]
      rw [e]
      exact ih matched

theorem pySlice_nil_of (l : List String) (k : Int) (hl : l.length ≤ 1) (hk : k ≤ 0) :
    pySlice l k = [] := by
  unfold pySlice
  split
  · have h0 : k.toNat = 0 := by omega
    simp [h0]
  · have h0 : (((l.length : Nat) : Int) + k).toNat = 0 := by omega
    simp [h0]

/-! ## Tier B: the scored list and the stable descending sort -/

theorem scoredOf_eq (ctxW : List String) : ∀ pool matched,
    scoredOf pool matched ctxW =
      (pool.filter (fun s => !matched.contains s && decide (0 < overlapScore ctxW s))).map
        (fun s => (overlapScore ctxW s, s)) := by
  intro pool
  induction pool with
  | nil =>
    intro matched
    simp [scoredOf]
  | cons s rest ih =>
    intro matched
    by_cases hm : s ∈ matched
    · simp [scoredOf, hm, ih]
    · by_cases hov : 0 < overlapScore ctxW s
      · simp [scoredOf, hm, hov, ih]
      · simp [scoredOf, hm, hov, ih]

theorem scored_snd_spec (ctxW : List String) (pool matched : List String)
    (p : Nat × String) (hp : p ∈ scoredOf pool matched ctxW) :
    p.2 ∈ pool ∧ ¬ p.2 ∈ matched ∧ 0 < overlapScore ctxW p.2 ∧
      p.1 = overlapScore ctxW p.2 := by
  rw [scoredOf_eq] at hp
  obtain ⟨y, hy, hpy⟩ := List.mem_map.mp hp
  obtain ⟨hy1, hy2⟩ := List.mem_filter.mp hy
  subst hpy
  have hy2' : ¬ y ∈ matched ∧ 0 < overlapScore ctxW y := by simpa using hy2
  exact ⟨hy1, hy2'.1, hy2'.2, rfl⟩

theorem insertDesc_perm (x : Nat × String) : ∀ l, (insertDesc x l).Perm (x :: l) := by
  intro l
  induction l with
  | nil => simp [insertDesc]
  | cons y ys ih =>
    by_cases h : x.1 < y.1
    · have step : insertDesc x (y :: ys) = y :: insertDesc x ys := by simp [insertDesc, h]
      rw [step]
      exact (ih.cons y).trans (List.Perm.swap x y ys)
    · have step : insertDesc x (y :: ys) = x :: y :: ys := by simp [insertDesc, h]
      rw [step]

theorem sortDesc_perm : ∀ l, (sortDesc l).Perm l := by
  intro l
  induction l with
  | nil => simp [sortDesc]
  | cons x xs ih =>
    have step : sortDesc (x :: xs) = insertDesc x (sortDesc xs) := rfl
    rw [step]
    exact (insertDesc_perm x (sortDesc xs)).trans (ih.cons x)

theorem insertDesc_mem (x : Nat × String) (l : List (Nat × String)) (p : Nat × String) :
    p ∈ insertDesc x l ↔ p = x ∨ p ∈ l := by
  rw [(insertDesc_perm x l).mem_iff]
  simp

theorem insertDesc_sorted (x : Nat × String) :
    ∀ l, l.Pairwise (fun a b => b.1 ≤ a.1) →
      (insertDesc x l).Pairwise (fun a b => b.1 ≤ a.1) := by
  intro l
  induction l with
  | nil =>
    intro
    simp [insertDesc]
  | cons y ys ih =>
    intro h
    rw [List.pairwise_cons] at h
    by_cases hlt : x.1 < y.1
    · have hrec := ih h.2
      have step : insertDesc x (y :: ys) = y :: insertDesc x ys := by simp [insertDesc, hlt]
      rw [step, List.pairwise_cons]
      refine ⟨?_, hrec⟩
      intro p hp
      rcases (insertDesc_mem x ys p).mp hp with rfl | hp'
      · omega
      · exact h.1 p hp'
    · have step : insertDesc x (y :: ys) = x :: y :: ys := by simp [insertDesc, hlt]
      rw [step, List.pairwise_cons]
      refine ⟨?_, List.pairwise_cons.mpr h⟩
      intro p hp
      rcases List.mem_cons.mp hp with rfl | hp'
      · omega
      · have := h.1 p hp'
        omega

theorem sortDesc_sorted : ∀ l, (sortDesc l).Pairwise (fun a b => b.1 ≤ a.1) := by
  intro l
  induction l with
  | nil => simp [sortDesc]
  | cons x xs ih => exact insertDesc_sorted x (sortDesc xs) ih

theorem insertDesc_filter_of_eq (x : Nat × String) (c : Nat) (hx : x.1 = c) :
    ∀ l, (insertDesc x l).filter (fun p => p.1 == c) =
      x :: l.filter (fun p => p.1 == c) := by
  intro l
  induction l with
  | nil => simp [insertDesc, List.filter_cons, hx]
  | cons y ys ih =>
    by_cases hlt : x.1 < y.1
    · have hy : (y.1 == c) = false := by
        simp only [beq_eq_false_iff_ne]
        omega
      have step : insertDesc x (y :: ys) = y :: insertDesc x ys := by simp [insertDesc, hlt]
      rw [step]
      simp [List.filter_cons, hy, ih]
    · have step : insertDesc x (y :: ys) = x :: y :: ys := by simp [insertDesc, hlt]
      rw [step]
      simp [List.filter_cons, hx]

theorem insertDesc_filter_of_ne (x : Nat × String) (c : Nat) (hx : x.1 ≠ c) :
    ∀ l, (insertDesc x l).filter (fun p => p.1 == c) =
      l.filter (fun p => p.1 == c) := by
  intro l
  induction l with
  | nil => simp [insertDesc, List.filter_cons, hx]
  | cons y ys ih =>
    by_cases hlt : x.1 < y.1
    · have step : insertDesc x (y :: ys) = y :: insertDesc x ys := by simp [insertDesc, hlt]
      rw [step]
      simp [List.filter_cons, ih]
    · have step : insertDesc x (y :: ys) = x :: y :: ys := by simp [insertDesc, hlt]
      rw [step]
      simp [List.filter_cons, hx]

/-- Stability of the modelled Python sort: entries of any fixed score keep their
    original relative order. -/
theorem sortDesc_filter (c : Nat) : ∀ l,
    (sortDesc l).filter (fun p => p.1 == c) = l.filter (fun p => p.1 == c) := by
  intro l
  induction l with
  | nil => simp [sortDesc]
  | cons x xs ih =>
    by_cases hx : x.1 = c
    · calc (insertDesc x (sortDesc xs)).filter (fun p => p.1 == c)
          = x :: (sortDesc xs).filter (fun p => p.1 == c) :=
            insertDesc_filter_of_eq x c hx (sortDesc xs)
        _ = x :: xs.filter (fun p => p.1 == c) := by rw [ih]
        _ = (x :: xs).filter (fun p => p.1 == c) := by simp [List.filter_cons, hx]
    · calc (insertDesc x (sortDesc xs)).filter (fun p => p.1 == c)
          = (sortDesc xs).filter (fun p => p.1 == c) :=
            insertDesc_filter_of_ne x c hx (sortDesc xs)
        _ = xs.filter (fun p => p.1 == c) := by rw [ih]
        _ = (x :: xs).filter (fun p => p.1 == c) := by simp [List.filter_cons, hx]

/-! ## Tier B phase lemmas -/

theorem tierBPhase_eq (pool : List String) (ctxL : String) (k : Int) (matched : List String) :
    tierBPhase pool ctxL k matched = matched ++
      ((sortDesc (scoredOf pool matched (pyWords ctxL))).take
        ((k - (matched.length : Int)).toNat)).map (fun p => p.2) := rfl

theorem tierB_new_spec (pool : List String) (ctxL : String) (k : Int) (matched : List String)
    (x : String)
    (hx : x ∈ ((sortDesc (scoredOf pool matched (pyWords ctxL))).take
        ((k - (matched.length : Int)).toNat)).map (fun p => p.2)) :
    x ∈ pool ∧ ¬ x ∈ matched ∧ 0 < overlapScore (pyWords ctxL) x := by
  obtain ⟨p, hp, hpx⟩ := List.mem_map.mp hx
  have hp1 : p ∈ sortDesc (scoredOf pool matched (pyWords ctxL)) := List.mem_of_mem_take hp
  have hp2 : p ∈ scoredOf pool matched (pyWords ctxL) :=
    (sortDesc_perm (scoredOf pool matched (pyWords ctxL))).mem_iff.mp hp1
  obtain ⟨h1, h2, h3, -⟩ := scored_snd_spec (pyWords ctxL) pool matched p hp2
  subst hpx
  exact ⟨h1, h2, h3⟩

theorem tierB_subset (pool : List String) (ctxL : String) (k : Int) (matched : List String)
    (x : String) (hx : x ∈ tierBPhase pool ctxL k matched) :
    x ∈ matched ∨ x ∈ pool := by
  rw [tierBPhase_eq] at hx
  rcases List.mem_append.mp hx with h | h
  · exact Or.inl h
  · exact Or.inr (tierB_new_spec pool ctxL k matched x h).1

theorem scored_snd_map (ctxW : List String) (pool matched : List String) :
    (scoredOf pool matched ctxW).map (fun p => p.2) =
      pool.filter (fun s => !matched.contains s && decide (0 < overlapScore ctxW s)) := by
  rw [scoredOf_eq, List.map_map]
  have hcomp : ((fun p : Nat × String => p.2) ∘ fun s => (overlapScore ctxW s, s)) =
      fun s => s := rfl
  rw [hcomp]
  exact List.map_id' _

theorem tierB_nodup (pool : List String) (ctxL : String) (k : Int) (matched : List String)
    (hpool : pool.Nodup) (hm : matched.Nodup) :
    (tierBPhase pool ctxL k matched).Nodup := by
  rw [tierBPhase_eq]
  refine List.Nodup.append hm ?_ ?_
  · have hfil : (pool.filter
        (fun s => !matched.contains s && decide (0 < overlapScore (pyWords ctxL) s))).Nodup :=
      hpool.filter _
    have hscored : ((scoredOf pool matched (pyWords ctxL)).map (fun p => p.2)).Nodup := by
      rw [scored_snd_map]
      exact hfil
    have hsorted : ((sortDesc (scoredOf pool matched (pyWords ctxL))).map
        (fun p => p.2)).Nodup :=
      (((sortDesc_perm _).map (fun p => p.2)).nodup_iff).mpr hscored
    have hsub : (((sortDesc (scoredOf pool matched (pyWords ctxL))).take
        ((k - (matched.length : Int)).toNat)).map (fun p => p.2)).Sublist
        ((sortDesc (scoredOf pool matched (pyWords ctxL))).map (fun p => p.2)) :=
      (List.take_sublist _ _).map _
    exact hsorted.sublist hsub
  · intro a ha hta
    exact (tierB_new_spec pool ctxL k matched a hta).2.1 ha

/-- If a Tier-B pass left the accumulated list strictly shorter than `top_k`, then
    the whole scored list was appended: every pool entry with positive overlap is in
    the output. -/
theorem tierB_short_mem (pool : List String) (ctxL : String) (k : Int) (matched : List String)
    (s : String)
    (hshort : ((tierBPhase pool ctxL k matched).length : Int) < k)
    (hs : s ∈ pool) (hov : 0 < overlapScore (pyWords ctxL) s) :
    s ∈ tierBPhase pool ctxL k matched := by
  by_cases hm : s ∈ matched
  · rw [tierBPhase_eq]
    exact List.mem_append_left _ hm
  · have hlen : (tierBPhase pool ctxL k matched).length =
        matched.length + min ((k - (matched.length : Int)).toNat)
          (sortDesc (scoredOf pool matched (pyWords ctxL))).length := by
      rw [tierBPhase_eq]
      simp [List.length_take]
    set sorted := sortDesc (scoredOf pool matched (pyWords ctxL)) with hsorted
    set n := (k - (matched.length : Int)).toNat with hn
    have hmlt : (matched.length : Int) < k := by
      have : matched.length ≤ (tierBPhase pool ctxL k matched).length := by
        rw [tierBPhase_eq]
        simp
      omega
    have hnk : (n : Int) = k - (matched.length : Int) := by
      rw [hn]
      omega
    have hminlt : min n sorted.length < n := by
      have := hshort
      rw [hlen] at this
      omega
    have hLle : sorted.length ≤ n := by
      rcases Nat.le_total n sorted.length with h | h
      · rw [min_eq_left h] at hminlt
        omega
      · exact h
    have htake : sorted.take n = sorted := List.take_of_length_le hLle
    have hmemscored : (overlapScore (pyWords ctxL) s, s) ∈ scoredOf pool matched (pyWords ctxL) := by
      rw [scoredOf_eq]
      refine List.mem_map.mpr ⟨s, ?_, rfl⟩
      refine List.mem_filter.mpr ⟨hs, ?_⟩
      simp [hm, hov]
    have hmemsorted : (overlapScore (pyWords ctxL) s, s) ∈ sorted :=
      (sortDesc_perm _).mem_iff.mpr hmemscored
    rw [tierBPhase_eq]
    refine List.mem_append_right _ ?_
    refine List.mem_map.mpr ⟨(overlapScore (pyWords ctxL) s, s), ?_, rfl⟩
    rw [← hsorted, ← hn, htake]
    exact hmemsorted

/-! ## Fallback tier lemmas -/

theorem fallbackLoop_spec (k : Int) : ∀ general matched,
    ∃ t, fallbackLoop k general matched = matched ++ t ∧
      t.Nodup ∧ ∀ x ∈ t, x ∈ general ∧ ¬ x ∈ matched := by
  intro general
  induction general with
  | nil =>
    intro matched
    exact ⟨[], by simp [fallbackLoop], List.nodup_nil, by simp⟩
  | cons p rest ih =>
    intro matched
    by_cases hm : p ∈ matched
    · obtain ⟨t, h1, h2, h3⟩ := ih matched
      refine ⟨t, ?_, h2, fun x hx => ⟨List.mem_cons_of_mem p (h3 x hx).1, (h3 x hx).2⟩⟩
      rw [← h1]
      simp [fallbackLoop, hm]
    · by_cases hlen : k ≤ ((matched.length : Int) + 1)
      · refine ⟨[p], by simp [fallbackLoop, hm, hlen], List.nodup_singleton p, ?_⟩
        intro x hx
        rw [List.mem_singleton] at hx
        subst hx
        exact ⟨by simp, hm⟩
      · obtain ⟨t, h1, h2, h3⟩ := ih (matched ++ [p])
        refine ⟨p :: t, ?_, ?_, ?_⟩
        · rw [show matched ++ p :: t = (matched ++ [p]) ++ t by simp, ← h1]
          simp [fallbackLoop, hm, hlen]
        · refine List.nodup_cons.mpr ⟨fun hs => ?_, h2⟩
          exact (h3 p hs).2 (by simp)
        · intro x hx
          rcases List.mem_cons.mp hx with h | h
          · subst h
            exact ⟨by simp, hm⟩
          · refine ⟨List.mem_cons_of_mem p (h3 x h).1, fun hmem => (h3 x h).2 ?_⟩
            simp [hmem]

/-! ## Phase composition lemmas -/

theorem nodup_append_of_fresh {m t : List String} (hm : m.Nodup) (ht : t.Nodup)
    (hf : ∀ x ∈ t, ¬ x ∈ m) : (m ++ t).Nodup :=
  List.Nodup.append hm ht (fun a ha hb => hf a hb ha)

theorem personalPhases_subset (ress : List String) (ctxL : String) (k : Int)
    (x : String) (hx : x ∈ (personalPhases ress ctxL k).1) : x ∈ ress := by
  unfold personalPhases at hx
  rcases hsc : tierACats keywords ress ctxL k [] with ⟨mA, b⟩
  rw [hsc] at hx
  have hmA_sub : ∀ y ∈ mA, y ∈ ress := by
    obtain ⟨tA, eA, -, fA⟩ := tierACats_spec ress ctxL k keywords []
    rw [hsc] at eA
    intro y hy
    have : y ∈ ([] : List String) ++ tA := by rw [← eA]; exact hy
    rw [List.nil_append] at this
    exact (fA y this).1
  cases b
  · dsimp only at hx
    by_cases hLt : ((mA.length : Nat) : Int) < k
    · rw [if_pos hLt] at hx
      rcases tierB_subset ress ctxL k mA x hx with h | h
      · exact hmA_sub x h
      · exact h
    · rw [if_neg hLt] at hx
      exact hmA_sub x hx
  · exact hmA_sub x hx

theorem personalPhases_nodup (ress : List String) (ctxL : String) (k : Int)
    (hress : ress.Nodup) : (personalPhases ress ctxL k).1.Nodup := by
  unfold personalPhases
  rcases hsc : tierACats keywords ress ctxL k [] with ⟨mA, b⟩
  have hmA : mA.Nodup := by
    obtain ⟨tA, eA, nA, -⟩ := tierACats_spec ress ctxL k keywords []
    rw [hsc] at eA
    have : mA = tA := by simpa using eA
    rw [this]
    exact nA
  cases b
  · dsimp only
    by_cases hLt : ((mA.length : Nat) : Int) < k
    · rw [if_pos hLt]
      exact tierB_nodup ress ctxL k mA hress hmA
    · rw [if_neg hLt]
      exact hmA
  · exact hmA

/-- If the personalized phases finished without an early return, every
    Tier-A-satisfying sentence of the pool is in the accumulated list. -/
theorem personalPhases_false_memA (ress : List String) (ctxL : String) (k : Int)
    (m1 : List String) (h : personalPhases ress ctxL k = (m1, false))
    (s : String) (hs : s ∈ ress) (hA : satisfiesTierA ctxL s = true) : s ∈ m1 := by
  unfold personalPhases at h
  rcases hsc : tierACats keywords ress ctxL k [] with ⟨mA, b⟩
  rw [hsc] at h
  cases b
  · dsimp only at h
    have hsA : s ∈ mA := by
      obtain ⟨cw, hcw, hgm⟩ := List.any_eq_true.mp hA
      rw [Bool.and_eq_true] at hgm
      exact tierACats_false_mem ress ctxL k keywords [] mA hsc cw hcw hgm.1 s hs hgm.2
    by_cases hLt : ((mA.length : Nat) : Int) < k
    · rw [if_pos hLt] at h
      have hm1 : m1 = tierBPhase ress ctxL k mA := (Prod.mk.injEq _ _ _ _).mp h |>.1.symm
      rw [hm1, tierBPhase_eq]
      exact List.mem_append_left _ hsA
    · rw [if_neg hLt] at h
      have hm1 : m1 = mA := (Prod.mk.injEq _ _ _ _).mp h |>.1.symm
      rw [hm1]
      exact hsA
  · exact absurd ((Prod.mk.injEq _ _ _ _).mp h).2 (by simp)

/-- If the personalized phases finished without an early return and still left the
    list short of `top_k`, every positive-overlap sentence of the pool is in it. -/
theorem personalPhases_false_short_memB (ress : List String) (ctxL : String) (k : Int)
    (m1 : List String) (h : personalPhases ress ctxL k = (m1, false))
    (hshort : ((m1.length : Nat) : Int) < k)
    (s : String) (hs : s ∈ ress) (hov : 0 < overlapScore (pyWords ctxL) s) : s ∈ m1 := by
  unfold personalPhases at h
  rcases hsc : tierACats keywords ress ctxL k [] with ⟨mA, b⟩
  rw [hsc] at h
  cases b
  · dsimp only at h
    by_cases hLt : ((mA.length : Nat) : Int) < k
    · rw [if_pos hLt] at h
      have hm1 : m1 = tierBPhase ress ctxL k mA := (Prod.mk.injEq _ _ _ _).mp h |>.1.symm
      rw [hm1]
      refine tierB_short_mem ress ctxL k mA s ?_ hs hov
      rw [← hm1]
      exact hshort
    · rw [if_neg hLt] at h
      have hm1 : m1 = mA := (Prod.mk.injEq _ _ _ _).mp h |>.1.symm
      rw [hm1] at hshort
      exact absurd hshort hLt
  · exact absurd ((Prod.mk.injEq _ _ _ _).mp h).2 (by simp)

theorem corpusPhases_append (corpus : List String) (ctxL : String) (k : Int)
    (matched : List String) :
    ∃ t, corpusPhases corpus ctxL k matched = matched ++ t ∧ ∀ x ∈ t, x ∈ corpus := by
  unfold corpusPhases
  rcases hsc : tierACats keywords corpus ctxL k matched with ⟨mA, b⟩
  obtain ⟨tA, eA, -, fA⟩ := tierACats_spec corpus ctxL k keywords matched
  rw [hsc] at eA
  dsimp only at eA
  cases b
  · dsimp only
    by_cases h1 : ((mA.length : Nat) : Int) < k
    · rw [if_pos h1]
      obtain ⟨tB, fB⟩ : ∃ tB, tierBPhase corpus ctxL k mA = mA ++ tB ∧
          ∀ x ∈ tB, x ∈ corpus := by
        refine ⟨_, tierBPhase_eq corpus ctxL k mA, ?_⟩
        intro x hx
        exact (tierB_new_spec corpus ctxL k mA x hx).1
      rcases fB with ⟨eB, fB⟩
      by_cases h2 : (((tierBPhase corpus ctxL k mA).length : Nat) : Int) < k
      · rw [if_pos h2]
        obtain ⟨tF, eF, -, fF⟩ := fallbackLoop_spec k (generalPhrases corpus)
          (tierBPhase corpus ctxL k mA)
        refine ⟨tA ++ (tB ++ tF), ?_, ?_⟩
        · rw [eF, eB, eA]
          simp
        · intro x hx
          rcases List.mem_append.mp hx with h | h
          · exact (fA x h).1
          · rcases List.mem_append.mp h with h' | h'
            · exact fB x h'
            · exact List.mem_of_mem_filter ((fF x h').1)
      · rw [if_neg h2]
        refine ⟨tA ++ tB, ?_, ?_⟩
        · rw [eB, eA]
          simp
        · intro x hx
          rcases List.mem_append.mp hx with h | h
          · exact (fA x h).1
          · exact fB x h
    · rw [if_neg h1]
      by_cases h2 : ((mA.length : Nat) : Int) < k
      · exact absurd h2 h1
      · rw [if_neg h2]
        exact ⟨tA, eA, fun x hx => (fA x hx).1⟩
  · exact ⟨tA, eA, fun x hx => (fA x hx).1⟩

theorem corpusPhases_nodup (corpus : List String) (ctxL : String) (k : Int)
    (matched : List String) (hcorpus : corpus.Nodup) (hm : matched.Nodup) :
    (corpusPhases corpus ctxL k matched).Nodup := by
  unfold corpusPhases
  rcases hsc : tierACats keywords corpus ctxL k matched with ⟨mA, b⟩
  have hmA : mA.Nodup := by
    obtain ⟨tA, eA, nA, fA⟩ := tierACats_spec corpus ctxL k keywords matched
    rw [hsc] at eA
    dsimp only at eA
    rw [eA]
    exact nodup_append_of_fresh hm nA (fun x hx => (fA x hx).2)
  cases b
  · dsimp only
    by_cases h1 : ((mA.length : Nat) : Int) < k
    · rw [if_pos h1]
      have hB : (tierBPhase corpus ctxL k mA).Nodup := tierB_nodup corpus ctxL k mA hcorpus hmA
      by_cases h2 : (((tierBPhase corpus ctxL k mA).length : Nat) : Int) < k
      · rw [if_pos h2]
        obtain ⟨tF, eF, nF, fF⟩ := fallbackLoop_spec k (generalPhrases corpus)
          (tierBPhase corpus ctxL k mA)
        rw [eF]
        exact nodup_append_of_fresh hB nF (fun x hx => (fF x hx).2)
      · rw [if_neg h2]
        exact hB
    · rw [if_neg h1]
      by_cases h2 : ((mA.length : Nat) : Int) < k
      · exact absurd h2 h1
      · rw [if_neg h2]
        exact hmA
  · exact hmA

/-! ## Unfolding the top-level control flow -/

theorem retrieveFinal_empty_ress (context : String) (top_k : Int)
    (ids : Option (List Int)) (corpus : List String) (es : List Essay)
    (hne : (ressOf ids es).isEmpty = true) :
    retrieveFinal context top_k ids corpus es =
      (if (0 : Int) < top_k then corpusPhases corpus (pyLower context) top_k [] else []) := by
  simp only [retrieveFinal, hne, if_true]
  norm_num

theorem retrieveFinal_early (context : String) (top_k : Int)
    (ids : Option (List Int)) (corpus : List String) (es : List Essay) (m1 : List String)
    (hne : (ressOf ids es).isEmpty = false)
    (hpp : personalPhases (ressOf ids es) (pyLower context) top_k = (m1, true)) :
    retrieveFinal context top_k ids corpus es = m1 := by
  simp only [retrieveFinal, hne, Bool.false_eq_true, if_false, hpp, if_true]

theorem retrieveFinal_noearly (context : String) (top_k : Int)
    (ids : Option (List Int)) (corpus : List String) (es : List Essay) (m1 : List String)
    (hne : (ressOf ids es).isEmpty = false)
    (hpp : personalPhases (ressOf ids es) (pyLower context) top_k = (m1, false)) :
    retrieveFinal context top_k ids corpus es =
      (if ((m1.length : Nat) : Int) < top_k then corpusPhases corpus (pyLower context) top_k m1
       else m1) := by
  simp only [retrieveFinal, hne, Bool.false_eq_true, if_false, hpp]

/-! ## C1 -/

/-- C1: for every context, every `top_k ≥ 0` and every personalization input, the
    returned sequence has length at most `top_k`. -/
theorem c1_result_length_le (context : String) (top_k : Int)
    (read_essay_ids : Option (List Int)) (corpus : List String) (all_essays : List Essay)
    (hk : 0 ≤ top_k) :
    ((retrieve_similar_continuations context top_k read_essay_ids corpus all_essays).length : Int)
      ≤ top_k :=
  pySlice_length_le _ top_k hk

theorem c1_result_length_le_witness :
    ((retrieve_similar_continuations "the internet" 3 none WRITING_CORPUS []).length : Int) ≤ 3 :=
  c1_result_length_le "the internet" 3 none WRITING_CORPUS [] (by decide)

/-! ## C3 -/

theorem personalPhases_nonpos (ress : List String) (ctxL : String) (k : Int) (hk : k ≤ 0) :
    ((personalPhases ress ctxL k).2 = false → (personalPhases ress ctxL k).1 = []) ∧
      (personalPhases ress ctxL k).1.length ≤ 1 := by
  unfold personalPhases
  rcases hsc : tierACats keywords ress ctxL k [] with ⟨mA, b⟩
  have hA := tierACats_nonpos ress ctxL k hk keywords []
  rw [hsc] at hA
  cases b
  · dsimp only
    have hmA : mA = [] := hA.1 rfl
    subst hmA
    have hlt : ¬ ((([] : List String).length : Nat) : Int) < k := by simp; omega
    rw [if_neg hlt]
    exact ⟨fun _ => rfl, by simp⟩
  · dsimp only
    refine ⟨fun hfalse => by simp at hfalse, ?_⟩
    simpa using hA.2

theorem retrieveFinal_nonpos (context : String) (top_k : Int)
    (ids : Option (List Int)) (corpus : List String) (es : List Essay) (hk : top_k ≤ 0) :
    (retrieveFinal context top_k ids corpus es).length ≤ 1 := by
  by_cases hne : (ressOf ids es).isEmpty = true
  · rw [retrieveFinal_empty_ress context top_k ids corpus es hne]
    have : ¬ (0 : Int) < top_k := by omega
    rw [if_neg this]
    simp
  · have hne' : (ressOf ids es).isEmpty = false := by
      rcases Bool.eq_false_or_eq_true ((ressOf ids es).isEmpty) with h | h
      · exact absurd h hne
      · exact h
    rcases hpp : personalPhases (ressOf ids es) (pyLower context) top_k with ⟨m1, b⟩
    have hp := personalPhases_nonpos (ressOf ids es) (pyLower context) top_k hk
    rw [hpp] at hp
    cases b
    · have hm1 : m1 = [] := hp.1 rfl
      subst hm1
      rw [retrieveFinal_noearly context top_k ids corpus es [] hne' hpp]
      have : ¬ ((([] : List String).length : Nat) : Int) < top_k := by simp; omega
      rw [if_neg this]
      simp
    · rw [retrieveFinal_early context top_k ids corpus es m1 hne' hpp]
      simpa using hp.2

/-- C3 (amended): for `top_k ≤ 0` the function returns the empty sequence, whatever
    the corpus and essay snapshot contain; the code does, however, load the corpus
    first (see `c3_counterexample`). -/
theorem c3_nonpos_returns_empty (context : String) (top_k : Int)
    (read_essay_ids : Option (List Int)) (corpus : List String) (all_essays : List Essay)
    (hk : top_k ≤ 0) :
    retrieve_similar_continuations context top_k read_essay_ids corpus all_essays = [] := by
  unfold retrieve_similar_continuations
  exact pySlice_nil_of _ top_k
    (retrieveFinal_nonpos context top_k read_essay_ids corpus all_essays hk) hk

/-- C3, counterexample to "without touching the corpus": at `top_k = 0` the call
    still consults the corpus accessor (line 12 runs before any `top_k` test),
    even though the result is empty. -/
theorem c3_counterexample :
    (retrieveTraced "x" 0 none none (Except.error "db down")).corpusConsulted = true ∧
    (retrieveTraced "x" 0 none none (Except.error "db down")).result = [] := by
  constructor
  · rfl
  · exact c3_nonpos_returns_empty "x" 0 none
      (getWritingCorpus none (Except.error "db down")).1 [] (by omega)

theorem c3_nonpos_returns_empty_witness :
    retrieve_similar_continuations "anything here" (-2) (some [1, 2]) WRITING_CORPUS [] = [] :=
  c3_nonpos_returns_empty "anything here" (-2) (some [1, 2]) WRITING_CORPUS [] (by omega)

/-! ## C2 -/

theorem retrieveFinal_nodup (context : String) (top_k : Int)
    (ids : Option (List Int)) (corpus : List String) (es : List Essay)
    (hress : (ressOf ids es).Nodup) (hcorpus : corpus.Nodup) :
    (retrieveFinal context top_k ids corpus es).Nodup := by
  by_cases hne : (ressOf ids es).isEmpty = true
  · rw [retrieveFinal_empty_ress context top_k ids corpus es hne]
    by_cases h0 : (0 : Int) < top_k
    · rw [if_pos h0]
      exact corpusPhases_nodup corpus (pyLower context) top_k [] hcorpus List.nodup_nil
    · rw [if_neg h0]
      exact List.nodup_nil
  · have hne' : (ressOf ids es).isEmpty = false := by
      rcases Bool.eq_false_or_eq_true ((ressOf ids es).isEmpty) with h | h
      · exact absurd h hne
      · exact h
    rcases hpp : personalPhases (ressOf ids es) (pyLower context) top_k with ⟨m1, b⟩
    have hm1 : m1.Nodup := by
      have := personalPhases_nodup (ressOf ids es) (pyLower context) top_k hress
      rw [hpp] at this
      exact this
    cases b
    · rw [retrieveFinal_noearly context top_k ids corpus es m1 hne' hpp]
      by_cases hlt : ((m1.length : Nat) : Int) < top_k
      · rw [if_pos hlt]
        exact corpusPhases_nodup corpus (pyLower context) top_k m1 hcorpus hm1
      · rw [if_neg hlt]
        exact hm1
    · rw [retrieveFinal_early context top_k ids corpus es m1 hne' hpp]
      exact hm1

/-- C2 (amended): the result holds no duplicate strings provided the personalized
    pool and the corpus each hold no repeated string.  (A string occurring twice in
    a pool can be returned twice: the Tier-B append loop takes its slice from the
    scored list without re-checking membership, see `c2_counterexample`.) -/
theorem c2_nodup_of_nodup_pools (context : String) (top_k : Int)
    (read_essay_ids : Option (List Int)) (corpus : List String) (all_essays : List Essay)
    (hress : (ressOf read_essay_ids all_essays).Nodup) (hcorpus : corpus.Nodup) :
    (retrieve_similar_continuations context top_k read_essay_ids corpus all_essays).Nodup := by
  unfold retrieve_similar_continuations
  exact (retrieveFinal_nodup context top_k read_essay_ids corpus all_essays
    hress hcorpus).sublist (pySlice_sublist _ _)

/-- C2, counterexample: when the body of a read essay repeats an 8-word sentence,
    the Tier-B pass returns that sentence twice. -/
theorem c2_counterexample :
    ¬ (retrieve_similar_continuations "a" 2 (some [7])
        (WRITING_CORPUS ++ ["a b c d e f g h", "a b c d e f g h"])
        [⟨7, some "a b c d e f g h. a b c d e f g h. x"⟩]).Nodup := by
  decide

theorem c2_nodup_of_nodup_pools_witness :
    (retrieve_similar_continuations "hello" 2 none ["a b", "c d"] []).Nodup :=
  c2_nodup_of_nodup_pools "hello" 2 none ["a b", "c d"] [] (by decide) (by decide)

/-! ## C4 -/

/-- C4: when a sentence of the personalized pool satisfies Tier A (keyword match)
    or Tier B (positive word overlap) for the context, it occurs in the result
    before any element not drawn from the personalized pool. -/
theorem c4_personalized_precede (context : String) (top_k : Int)
    (read_essay_ids : Option (List Int)) (corpus : List String) (all_essays : List Essay)
    (s : String) (hs : s ∈ ressOf read_essay_ids all_essays)
    (hAB : satisfiesTierA (pyLower context) s = true ∨
      0 < overlapScore (pyWords (pyLower context)) s)
    (j : Nat) (g : String)
    (hj : (retrieve_similar_continuations context top_k read_essay_ids corpus all_essays).get? j
      = some g)
    (hg : ¬ g ∈ ressOf read_essay_ids all_essays) :
    ∃ i, i < j ∧
      (retrieve_similar_continuations context top_k read_essay_ids corpus all_essays).get? i
        = some s := by
  by_cases hk : top_k ≤ 0
  · exfalso
    rw [c3_nonpos_returns_empty context top_k read_essay_ids corpus all_essays hk] at hj
    simp at hj
  push_neg at hk
  have hkle : (0 : Int) ≤ top_k := le_of_lt hk
  have hne' : (ressOf read_essay_ids all_essays).isEmpty = false := by
    rcases Bool.eq_false_or_eq_true ((ressOf read_essay_ids all_essays).isEmpty) with h | h
    · exfalso
      rw [List.isEmpty_iff] at h
      rw [h] at hs
      simp at hs
    · exact h
  rcases hpp : personalPhases (ressOf read_essay_ids all_essays) (pyLower context) top_k
    with ⟨m1, b⟩
  have hsub1 : ∀ y ∈ m1, y ∈ ressOf read_essay_ids all_essays := by
    intro y hy
    refine personalPhases_subset (ressOf read_essay_ids all_essays) (pyLower context) top_k y ?_
    rw [hpp]
    exact hy
  cases b
  · by_cases hlt : ((m1.length : Nat) : Int) < top_k
    · have hfin : retrieveFinal context top_k read_essay_ids corpus all_essays
          = corpusPhases corpus (pyLower context) top_k m1 := by
        rw [retrieveFinal_noearly context top_k read_essay_ids corpus all_essays m1 hne' hpp,
          if_pos hlt]
      obtain ⟨t2, ht2, -⟩ := corpusPhases_append corpus (pyLower context) top_k m1
      have hR : retrieve_similar_continuations context top_k read_essay_ids corpus all_essays
          = (m1 ++ t2).take top_k.toNat := by
        unfold retrieve_similar_continuations
        rw [hfin, ht2, pySlice_of_nonneg _ _ hkle]
      have hm1K : m1.length < top_k.toNat := by omega
      have hsm1 : s ∈ m1 := by
        rcases hAB with hA | hB
        · exact personalPhases_false_memA _ _ _ m1 hpp s hs hA
        · exact personalPhases_false_short_memB _ _ _ m1 hpp hlt s hs hB
      obtain ⟨⟨i, hi⟩, hgi⟩ := List.mem_iff_get.mp hsm1
      have hjlen : m1.length ≤ j := by
        by_contra hjm
        push_neg at hjm
        have hjK : j < top_k.toNat := lt_trans hjm hm1K
        rw [hR, List.get?_take hjK, List.get?_append hjm, List.get?_eq_get hjm] at hj
        have : g ∈ m1 := by
          rw [← Option.some_inj.mp hj]
          exact List.get_mem m1 j hjm
        exact hg (hsub1 g this)
      refine ⟨i, lt_of_lt_of_le hi hjlen, ?_⟩
      rw [hR, List.get?_take (lt_trans hi hm1K), List.get?_append hi, List.get?_eq_get hi, hgi]
    · exfalso
      have hfin : retrieveFinal context top_k read_essay_ids corpus all_essays = m1 := by
        rw [retrieveFinal_noearly context top_k read_essay_ids corpus all_essays m1 hne' hpp,
          if_neg hlt]
      have hgm : g ∈ m1 := by
        have : g ∈ retrieve_similar_continuations context top_k read_essay_ids corpus all_essays :=
          List.get?_mem hj
        unfold retrieve_similar_continuations at this
        rw [hfin] at this
        exact pySlice_subset m1 top_k g this
      exact hg (hsub1 g hgm)
  · exfalso
    have hfin : retrieveFinal context top_k read_essay_ids corpus all_essays = m1 :=
      retrieveFinal_early context top_k read_essay_ids corpus all_essays m1 hne' hpp
    have hgm : g ∈ m1 := by
      have : g ∈ retrieve_similar_continuations context top_k read_essay_ids corpus all_essays :=
        List.get?_mem hj
      unfold retrieve_similar_continuations at this
      rw [hfin] at this
      exact pySlice_subset m1 top_k g this
    exact hg (hsub1 g hgm)

theorem c4_personalized_precede_witness :
    ∃ i, i < 1 ∧
      (retrieve_similar_continuations "government policy on emissions" 2 (some [7])
        WRITING_CORPUS [⟨7, some "climate policy a b c d e f. x"⟩]).get? i
        = some "climate policy a b c d e f" :=
  c4_personalized_precede "government policy on emissions" 2 (some [7]) WRITING_CORPUS
    [⟨7, some "climate policy a b c d e f. x"⟩] "climate policy a b c d e f"
    (by decide) (Or.inl (by decide)) 1
    "can lead to social isolation if not used responsibly" (by decide) (by decide)

/-! ## C5 -/

/-- C5, counterexample: `retrieve_similar_continuations` reads the whole context
    string; two contexts with identical last 100 characters can yield different
    results when an earlier character run contains a keyword. -/
theorem c5_counterexample :
    pyTakeRight 100 (String.mk (List.replicate 100 'a')) =
      pyTakeRight 100 ("technology" ++ String.mk (List.replicate 100 'a')) ∧
    ¬ (retrieve_similar_continuations (String.mk (List.replicate 100 'a')) 1 none
        WRITING_CORPUS [] =
      retrieve_similar_continuations ("technology" ++ String.mk (List.replicate 100 'a')) 1 none
        WRITING_CORPUS []) := by
  constructor
  · decide
  · decide

/-- C5 (amended): the 100-character trailing window is applied by the caller:
    `generate_suggestions` passes `text[-100:].strip()` to the retriever, so two
    texts agreeing on their last 100 characters produce identical retrieval calls
    and results.  The retriever itself uses the whole string it is handed. -/
theorem c5_window_applied_by_caller (text1 text2 : String) (top_k : Int)
    (read_essay_ids : Option (List Int)) (corpus : List String) (all_essays : List Essay)
    (h : pyTakeRight 100 text1 = pyTakeRight 100 text2) :
    retrieveForSuggest text1 top_k read_essay_ids corpus all_essays =
      retrieveForSuggest text2 top_k read_essay_ids corpus all_essays := by
  unfold retrieveForSuggest ragContext
  rw [h]

theorem c5_window_applied_by_caller_witness :
    retrieveForSuggest ("technology" ++ String.mk (List.replicate 100 'a')) 1 none
        WRITING_CORPUS [] =
      retrieveForSuggest (String.mk (List.replicate 100 'a')) 1 none WRITING_CORPUS [] :=
  c5_window_applied_by_caller ("technology" ++ String.mk (List.replicate 100 'a'))
    (String.mk (List.replicate 100 'a')) 1 none WRITING_CORPUS [] (by decide)

/-! ## C7 -/

/-- C7: when the essay load fails, `get_writing_corpus` commits a cache equal to
    exactly the static phrase list and returns it; the failure is absorbed (the
    accessors and the retriever are total), and retrieval against the degraded
    snapshot is retrieval against the static list. -/
theorem c7_load_failure_degrades (err : String) (context : String) (top_k : Int)
    (read_essay_ids : Option (List Int)) (all_essays : List Essay) :
    getWritingCorpus none (Except.error err) = (WRITING_CORPUS, some WRITING_CORPUS) ∧
    retrieve_similar_continuations context top_k read_essay_ids
        (getWritingCorpus none (Except.error err)).1 all_essays =
      retrieve_similar_continuations context top_k read_essay_ids WRITING_CORPUS all_essays := by
  have h : getWritingCorpus none (Except.error err) = (WRITING_CORPUS, some WRITING_CORPUS) := by
    simp [getWritingCorpus, loadIeltsData]
  exact ⟨h, by rw [h]⟩

/-! ## C8 -/

theorem extractSentences_wordCount (body : String) (s : String)
    (h : s ∈ extractSentences body) :
    8 ≤ (pyWords s).length ∧ (pyWords s).length ≤ 30 := by
  unfold extractSentences at h
  have := (List.mem_filter.mp h).2
  exact of_decide_eq_true this

/-- C8: every essay-derived sentence admitted into the combined corpus or the
    personalized pool has a whitespace word count within 8..30; the static corpus
    phrases carry no such constraint (one of them has 7 words). -/
theorem c8_extraction_window :
    (∀ (dbEssays : List Essay) (ids : List Int) (s : String),
        s ∈ loadIeltsData (Except.ok dbEssays) ∨ s ∈ readEssaySentences dbEssays ids →
        8 ≤ (pyWords s).length ∧ (pyWords s).length ≤ 30) ∧
    (∃ p, p ∈ WRITING_CORPUS ∧ (pyWords p).length < 8) := by
  constructor
  · intro dbEssays ids s h
    rcases h with h | h
    · unfold loadIeltsData at h
      obtain ⟨e, -, hse⟩ := List.mem_flatMap.mp h
      by_cases hb : strEmpty e.bodyText = true
      · rw [if_pos hb] at hse
        simp at hse
      · rw [if_neg hb] at hse
        exact extractSentences_wordCount e.bodyText s hse
    · unfold readEssaySentences at h
      obtain ⟨e, -, hse⟩ := List.mem_flatMap.mp h
      by_cases hb : strEmpty e.bodyText = true
      · rw [if_pos hb] at hse
        simp at hse
      · rw [if_neg hb] at hse
        exact extractSentences_wordCount e.bodyText s hse
  · exact ⟨"brings both unprecedented opportunities and significant challenges",
      by decide, by decide⟩

theorem c8_extraction_window_witness :
    8 ≤ (pyWords "a b c d e f g h").length ∧ (pyWords "a b c d e f g h").length ≤ 30 :=
  c8_extraction_window.1 [⟨7, some "a b c d e f g h. x"⟩] [7] "a b c d e f g h"
    (Or.inr (by decide))

/-! ## C10 -/

theorem ressOf_eq_getD (ids : Option (List Int)) (es : List Essay) :
    ressOf ids es =
      (if (ids.getD []).isEmpty then [] else readEssaySentences es (ids.getD [])) := by
  cases ids <;> simp [ressOf]

/-- C10: the result depends on the reading-history parameter only through the set
    of essay numbers it contains; order, duplicates, and `[]`-versus-absent make no
    difference. -/
theorem c10_ids_set_semantics (context : String) (top_k : Int) (corpus : List String)
    (all_essays : List Essay) (ids1 ids2 : Option (List Int))
    (h : ∀ x : Int, x ∈ ids1.getD [] ↔ x ∈ ids2.getD []) :
    retrieve_similar_continuations context top_k ids1 corpus all_essays =
      retrieve_similar_continuations context top_k ids2 corpus all_essays := by
  have hc : ∀ n : Int, (ids1.getD []).contains n = (ids2.getD []).contains n := by
    intro n
    by_cases h1 : n ∈ ids1.getD []
    · have h2 : n ∈ ids2.getD [] := (h n).mp h1
      simp [h1, h2]
    · have h2 : ¬ n ∈ ids2.getD [] := fun hx => h1 ((h n).mpr hx)
      simp [h1, h2]
  have hread : readEssaySentences all_essays (ids1.getD []) =
      readEssaySentences all_essays (ids2.getD []) := by
    unfold readEssaySentences
    have : all_essays.filter (fun e => (ids1.getD []).contains e.essay_number) =
        all_essays.filter (fun e => (ids2.getD []).contains e.essay_number) :=
      List.filter_congr (fun e _ => hc e.essay_number)
    rw [this]
  have hempty : (ids1.getD []).isEmpty = (ids2.getD []).isEmpty := by
    rcases he : (ids1.getD []).isEmpty with hf | ht
    · rcases he2 : (ids2.getD []).isEmpty with hf2 | ht2
      · rfl
      · exfalso
        rw [List.isEmpty_iff] at he2
        rw [List.isEmpty_eq_false] at he
        obtain ⟨x, hx⟩ := List.exists_mem_of_ne_nil _ he
        have := (h x).mp hx
        rw [he2] at this
        simp at this
    · rcases he2 : (ids2.getD []).isEmpty with hf2 | ht2
      · exfalso
        rw [List.isEmpty_iff] at he
        rw [List.isEmpty_eq_false] at he2
        obtain ⟨x, hx⟩ := List.exists_mem_of_ne_nil _ he2
        have := (h x).mpr hx
        rw [he] at this
        simp at this
      · rfl
  have hres : ressOf ids1 all_essays = ressOf ids2 all_essays := by
    rw [ressOf_eq_getD, ressOf_eq_getD, hempty, hread]
  unfold retrieve_similar_continuations retrieveFinal
  rw [hres]

theorem c10_ids_set_semantics_witness :
    retrieve_similar_continuations "the job market" 2 none WRITING_CORPUS [] =
      retrieve_similar_continuations "the job market" 2 (some []) WRITING_CORPUS [] :=
  c10_ids_set_semantics "the job market" 2 WRITING_CORPUS [] none (some [])
    (fun _ => Iff.rfl)

/-! ## C6 -/

theorem keywords_gate_empty :
    ∀ cw ∈ keywords, cw.2.any (fun w => substrOf w (pyLower "")) = false := by decide

theorem tierACats_nogate (pool : List String) (ctxL : String) (k : Int) :
    ∀ cats matched, (∀ cw ∈ cats, cw.2.any (fun w => substrOf w ctxL) = false) →
      tierACats cats pool ctxL k matched = (matched, false) := by
  intro cats
  induction cats with
  | nil =>
    intro matched _
    simp [tierACats]
  | cons cw rest ih =>
    intro matched h
    obtain ⟨cat, ws⟩ := cw
    have hg : ws.any (fun w => substrOf w ctxL) = false := h (cat, ws) (by simp)
    have step : tierACats ((cat, ws) :: rest) pool ctxL k matched
        = tierACats rest pool ctxL k matched := by
      simp [tierACats, hg]
    rw [step]
    exact ih matched (fun cw hcw => h cw (List.mem_cons_of_mem _ hcw))

theorem overlapScore_nil (s : String) : overlapScore [] s = 0 := by
  unfold overlapScore
  have : ((pyWords (pyLower s)).dedup.filter (fun w => List.contains [] w)) = [] := by
    simp
  rw [this]
  rfl

theorem scoredOf_nil_ctx : ∀ pool matched, scoredOf pool matched [] = [] := by
  intro pool
  induction pool with
  | nil =>
    intro matched
    simp [scoredOf]
  | cons s rest ih =>
    intro matched
    by_cases hm : s ∈ matched
    · simp [scoredOf, hm, ih]
    · simp [scoredOf, hm, ih, overlapScore_nil]

theorem pyWords_lower_empty : pyWords (pyLower "") = [] := by decide

theorem tierB_empty_ctx (pool : List String) (k : Int) (matched : List String) :
    tierBPhase pool (pyLower "") k matched = matched := by
  rw [tierBPhase_eq, pyWords_lower_empty, scoredOf_nil_ctx]
  simp [sortDesc]

theorem personalPhases_empty_ctx (ress : List String) (k : Int) :
    personalPhases ress (pyLower "") k = ([], false) := by
  unfold personalPhases
  rw [tierACats_nogate ress (pyLower "") k keywords [] keywords_gate_empty]
  dsimp only
  by_cases h0 : ((([] : List String).length : Nat) : Int) < k
  · rw [if_pos h0, tierB_empty_ctx]
  · rw [if_neg h0]

theorem corpusPhases_empty_ctx (corpus : List String) (k : Int) :
    corpusPhases corpus (pyLower "") k [] =
      (if (0 : Int) < k then fallbackLoop k (generalPhrases corpus) [] else []) := by
  unfold corpusPhases
  rw [tierACats_nogate corpus (pyLower "") k keywords [] keywords_gate_empty]
  dsimp only
  by_cases h0 : ((([] : List String).length : Nat) : Int) < k
  · rw [if_pos h0, tierB_empty_ctx]
    have h0' : (0 : Int) < k := by simpa using h0
    rw [if_pos h0, if_pos h0']
  · rw [if_neg h0]
    have h0' : ¬ (0 : Int) < k := by simpa using h0
    rw [if_neg h0, if_neg h0']

theorem retrieveFinal_empty_ctx (top_k : Int) (read_essay_ids : Option (List Int))
    (corpus : List String) (all_essays : List Essay) :
    retrieveFinal "" top_k read_essay_ids corpus all_essays =
      (if (0 : Int) < top_k then fallbackLoop top_k (generalPhrases corpus) [] else []) := by
  by_cases hne : (ressOf read_essay_ids all_essays).isEmpty = true
  · rw [retrieveFinal_empty_ress "" top_k read_essay_ids corpus all_essays hne]
    by_cases h0 : (0 : Int) < top_k
    · rw [if_pos h0, if_pos h0, corpusPhases_empty_ctx, if_pos h0]
    · rw [if_neg h0, if_neg h0]
  · have hne' : (ressOf read_essay_ids all_essays).isEmpty = false := by
      rcases Bool.eq_false_or_eq_true ((ressOf read_essay_ids all_essays).isEmpty) with h | h
      · exact absurd h hne
      · exact h
    rw [retrieveFinal_noearly "" top_k read_essay_ids corpus all_essays []
      hne' (personalPhases_empty_ctx _ top_k)]
    by_cases h0 : ((([] : List String).length : Nat) : Int) < top_k
    · have h0' : (0 : Int) < top_k := by simpa using h0
      rw [if_pos h0, corpusPhases_empty_ctx, if_pos h0']
    · have h0' : ¬ (0 : Int) < top_k := by simpa using h0
      rw [if_neg h0, if_neg h0']

/-- C6: with the empty context neither keyword gating nor word overlap selects
    anything in any pool; every result element is a corpus phrase containing one
    of the fixed fallback marker words, and if no such phrase exists the result is
    empty. -/
theorem c6_empty_context (top_k : Int) (read_essay_ids : Option (List Int))
    (corpus : List String) (all_essays : List Essay) :
    (∀ p ∈ retrieve_similar_continuations "" top_k read_essay_ids corpus all_essays,
        p ∈ corpus ∧ hasMarker p = true) ∧
    (corpus.filter hasMarker = [] →
      retrieve_similar_continuations "" top_k read_essay_ids corpus all_essays = []) := by
  have hfin := retrieveFinal_empty_ctx top_k read_essay_ids corpus all_essays
  constructor
  · intro p hp
    unfold retrieve_similar_continuations at hp
    rw [hfin] at hp
    have hp' := pySlice_subset _ top_k p hp
    by_cases h0 : (0 : Int) < top_k
    · rw [if_pos h0] at hp'
      obtain ⟨t, ht, -, hf⟩ := fallbackLoop_spec top_k (generalPhrases corpus) []
      rw [ht] at hp'
      rw [List.nil_append] at hp'
      have := (hf p hp').1
      unfold generalPhrases at this
      exact ⟨List.mem_of_mem_filter this, (List.mem_filter.mp this).2⟩
    · rw [if_neg h0] at hp'
      simp at hp'
  · intro hnone
    unfold retrieve_similar_continuations
    rw [hfin]
    have hg : generalPhrases corpus = [] := hnone
    rw [hg]
    by_cases h0 : (0 : Int) < top_k
    · rw [if_pos h0]
      simp [fallbackLoop, pySlice]
    · rw [if_neg h0]
      simp [pySlice]

theorem c6_empty_context_witness :
    retrieve_similar_continuations "" 3 none [] [] = [] ∧
      ("is supported by a growing body of empirical evidence" ∈ WRITING_CORPUS ∧
        hasMarker "is supported by a growing body of empirical evidence" = true) :=
  ⟨(c6_empty_context 3 none [] []).2 rfl,
    (c6_empty_context 1 none WRITING_CORPUS []).1
      "is supported by a growing body of empirical evidence" (by decide)⟩

/-! ## C9 -/

theorem filter_of_map {α β : Type} (f : α → β) (p : β → Bool) (l : List α) :
    (l.map f).filter p = (l.filter (fun a => p (f a))).map f := by
  induction l with
  | nil => simp
  | cons x xs ih =>
    by_cases hp : p (f x) = true
    · simp [List.filter_cons, hp, ih]
    · simp [List.filter_cons, hp, ih]

theorem map_snd_map_pair (f : String → Nat) (l : List String) :
    ((l.map (fun s => (f s, s))).map (fun q : Nat × String => q.2)) = l := by
  rw [List.map_map]
  have hcomp : ((fun q : Nat × String => q.2) ∘ fun s => (f s, s)) = fun s => s := rfl
  rw [hcomp]
  exact List.map_id' l

/-- C9: one Tier-B pass appends, after the already-matched entries, exactly the
    not-yet-selected pool candidates with positive word overlap, ranked by overlap
    descending with ties in pool order, stopping at `top_k` accumulated results.
    Truncation keeps the highest-overlap candidates: an eligible candidate left out
    scores no higher than any candidate kept. -/
theorem c9_tierB_ranking (pool : List String) (ctxL : String) (k : Int)
    (matched : List String) :
    ∃ t, tierBPhase pool ctxL k matched = matched ++ t ∧
      (∀ s ∈ t, s ∈ pool ∧ ¬ s ∈ matched ∧ 0 < overlapScore (pyWords ctxL) s) ∧
      t.length = min ((k - (matched.length : Int)).toNat)
        (specEligible pool matched ctxL).length ∧
      t.Pairwise (fun a b =>
        overlapScore (pyWords ctxL) b ≤ overlapScore (pyWords ctxL) a) ∧
      (∀ s ∈ specEligible pool matched ctxL, ¬ s ∈ t →
        ∀ s' ∈ t, overlapScore (pyWords ctxL) s ≤ overlapScore (pyWords ctxL) s') ∧
      (∀ c : Nat, ∃ u, (specEligible pool matched ctxL).filter
          (fun s => overlapScore (pyWords ctxL) s == c) =
        t.filter (fun s => overlapScore (pyWords ctxL) s == c) ++ u) := by
  have h1 : scoredOf pool matched (pyWords ctxL) =
      (specEligible pool matched ctxL).map
        (fun s => (overlapScore (pyWords ctxL) s, s)) := by
    rw [scoredOf_eq]
    rfl
  have hkey : ∀ p ∈ (sortDesc (scoredOf pool matched (pyWords ctxL))).take
      ((k - (matched.length : Int)).toNat), p.1 = overlapScore (pyWords ctxL) p.2 := by
    intro p hp
    have hmem : p ∈ scoredOf pool matched (pyWords ctxL) :=
      (sortDesc_perm _).mem_iff.mp (List.mem_of_mem_take hp)
    exact (scored_snd_spec (pyWords ctxL) pool matched p hmem).2.2.2
  refine ⟨((sortDesc (scoredOf pool matched (pyWords ctxL))).take
      ((k - (matched.length : Int)).toNat)).map (fun p => p.2),
    tierBPhase_eq pool ctxL k matched,
    fun s hsm => tierB_new_spec pool ctxL k matched s hsm, ?_, ?_, ?_, ?_⟩
  · have hlen_sorted : (sortDesc (scoredOf pool matched (pyWords ctxL))).length =
        (scoredOf pool matched (pyWords ctxL)).length := (sortDesc_perm _).length_eq
    rw [List.length_map, List.length_take, hlen_sorted, h1, List.length_map]
  · have hsort := sortDesc_sorted (scoredOf pool matched (pyWords ctxL))
    have htake : ((sortDesc (scoredOf pool matched (pyWords ctxL))).take
        ((k - (matched.length : Int)).toNat)).Pairwise (fun a b => b.1 ≤ a.1) :=
      hsort.sublist (List.take_sublist _ _)
    rw [List.pairwise_map]
    refine htake.imp_of_mem ?_
    intro a b ha hb hab
    rw [← hkey a ha, ← hkey b hb]
    exact hab
  · intro s hse hsnott s' hs't
    have hpair : (overlapScore (pyWords ctxL) s, s) ∈
        sortDesc (scoredOf pool matched (pyWords ctxL)) := by
      refine (sortDesc_perm _).mem_iff.mpr ?_
      rw [h1]
      exact List.mem_map.mpr ⟨s, hse, rfl⟩
    have hnot_take : ¬ (overlapScore (pyWords ctxL) s, s) ∈
        (sortDesc (scoredOf pool matched (pyWords ctxL))).take
          ((k - (matched.length : Int)).toNat) := by
      intro hmem
      exact hsnott (List.mem_map.mpr ⟨(overlapScore (pyWords ctxL) s, s), hmem, rfl⟩)
    have hdrop : (overlapScore (pyWords ctxL) s, s) ∈
        (sortDesc (scoredOf pool matched (pyWords ctxL))).drop
          ((k - (matched.length : Int)).toNat) := by
      have hmem := hpair
      rw [← List.take_append_drop ((k - (matched.length : Int)).toNat)
        (sortDesc (scoredOf pool matched (pyWords ctxL)))] at hmem
      rcases List.mem_append.mp hmem with h | h
      · exact absurd h hnot_take
      · exact h
    obtain ⟨q, hq, hq2⟩ := List.mem_map.mp hs't
    have hq2' : q.2 = s' := hq2
    have hsplit := sortDesc_sorted (scoredOf pool matched (pyWords ctxL))
    rw [← List.take_append_drop ((k - (matched.length : Int)).toNat)
      (sortDesc (scoredOf pool matched (pyWords ctxL)))] at hsplit
    have hcross := (List.pairwise_append.mp hsplit).2.2 q hq
      (overlapScore (pyWords ctxL) s, s) hdrop
    rw [hkey q hq, hq2'] at hcross
    exact hcross
  · intro c
    set sorted := sortDesc (scoredOf pool matched (pyWords ctxL)) with hso
    set n := (k - (matched.length : Int)).toNat with hn
    refine ⟨((sorted.drop n).filter (fun q => q.1 == c)).map (fun q : Nat × String => q.2), ?_⟩
    have step1 : ((sorted.take n).map (fun q : Nat × String => q.2)).filter
        (fun s => overlapScore (pyWords ctxL) s == c) =
        ((sorted.take n).filter
          (fun q => overlapScore (pyWords ctxL) q.2 == c)).map (fun q : Nat × String => q.2) :=
      filter_of_map _ _ _
    have step2 : (sorted.take n).filter (fun q => overlapScore (pyWords ctxL) q.2 == c) =
        (sorted.take n).filter (fun q => q.1 == c) := by
      apply List.filter_congr
      intro q hq
      rw [hkey q hq]
    have step3 : sorted.filter (fun q : Nat × String => q.1 == c) =
        (sorted.take n).filter (fun q => q.1 == c) ++
          (sorted.drop n).filter (fun q => q.1 == c) := by
      rw [← List.filter_append, List.take_append_drop]
    have step4 : sorted.filter (fun q : Nat × String => q.1 == c) =
        (scoredOf pool matched (pyWords ctxL)).filter (fun q => q.1 == c) :=
      sortDesc_filter c _
    have step5 : (scoredOf pool matched (pyWords ctxL)).filter
        (fun q : Nat × String => q.1 == c) =
        ((specEligible pool matched ctxL).filter
          (fun s => overlapScore (pyWords ctxL) s == c)).map
            (fun s => (overlapScore (pyWords ctxL) s, s)) := by
      rw [h1]
      exact filter_of_map _ _ _
    have step6 : (specEligible pool matched ctxL).filter
        (fun s => overlapScore (pyWords ctxL) s == c) =
        ((scoredOf pool matched (pyWords ctxL)).filter
          (fun q : Nat × String => q.1 == c)).map (fun q : Nat × String => q.2) := by
      rw [step5, map_snd_map_pair]
    rw [step6, ← step4, step3, List.map_append, step1, step2]

end WriteLoopBackend
